import Mathlib

/-!
Verification of the numerically stable L2-norm primitives in
BasisLib/ops/safe.py (functions norm, normalize_and_return_norm,
normalize), over exact real-number semantics.

Arrays are modelled as row-major flat lists of reals together with a
shape, mirroring numpy ndarrays.  The numpy calls used by the source
(abs, max, maximum, division, sum with axis and keepdims, where,
squeeze) are embedded below; fallible engine calls (invalid axis,
reductions over empty arrays, squeezing a non-unit axis) return
Except values.
-/

namespace BasisLib

noncomputable section

/-- np.finfo(float64).tiny: the smallest positive normal float64. -/
def tiny : ℝ := (2 : ℝ) ^ (-1022 : ℤ)

/-- Errors surfaced by the array engine. -/
inductive Err where
  | invalidAxis
  | emptyReduction
  | squeezeNonUnit
deriving DecidableEq

/-- A numpy-style ndarray: a shape and a row-major flat data list. -/
structure Arr where
  shape : List Nat
  data : List ℝ
  hlen : data.length = shape.prod

/-- Elementwise map (models numpy elementwise ops and scalar broadcasts). -/
def Arr.map (f : ℝ → ℝ) (x : Arr) : Arr :=
  ⟨x.shape, x.data.map f, by simp [x.hlen]⟩

/-- np.max over all elements (axis=None); errors on an empty array. -/
def maxAll (x : Arr) : Except Err ℝ :=
  match x.data with
  | [] => .error .emptyReduction
  | h :: t => .ok (t.foldl max h)

/-- Resolve a (possibly negative) axis index against a rank, numpy style:
valid iff -r <= ax < r. -/
def resolveAxis (ax : Int) (r : Nat) : Option Nat :=
  if 0 ≤ ax then
    if ax < (r : Int) then some ax.toNat else none
  else
    if 0 ≤ ax + (r : Int) then some (ax + (r : Int)).toNat else none

/-- Row-major sums along axis k of an array with shape s and data d. -/
def sumAlong (s : List Nat) (d : List ℝ) (k : Nat) : List ℝ :=
  List.ofFn (fun p : Fin ((s.take k).prod * (s.drop (k + 1)).prod) =>
    ∑ j ∈ Finset.range (s.getD k 1),
      d.getD ((p.val / (s.drop (k + 1)).prod * s.getD k 1 + j) *
        (s.drop (k + 1)).prod + p.val % (s.drop (k + 1)).prod) 0)

/-- np.sum(x, axis=axis, keepdims=keepdims). axis=None sums everything.
With keepdims, reduced axes are kept as size-1 dimensions. -/
def npSum (x : Arr) (axis : Option Int) (keepdims : Bool) : Except Err Arr :=
  match axis with
  | none =>
      if keepdims then
        .ok ⟨x.shape.map (fun _ => 1), [x.data.sum], by
          have hone : ∀ s : List Nat, (s.map (fun _ => 1)).prod = 1 := by
            intro s
            induction s with
            | nil => rfl
            | cons a t ih => simp
          simp [hone]⟩
      else .ok ⟨[], [x.data.sum], by simp⟩
  | some ax =>
      match h : resolveAxis ax x.shape.length with
      | none => .error .invalidAxis
      | some k =>
          if keepdims then
            .ok ⟨x.shape.set k 1, sumAlong x.shape x.data k, by
              have hk : k < x.shape.length := by
                unfold resolveAxis at h
                split at h <;> split at h <;> simp_all <;> omega
              have hset : ∀ (s : List Nat) (j : Nat), j < s.length →
                  (s.set j 1).prod =
                    (s.take j).prod * (s.drop (j + 1)).prod := by
                intro s
                induction s with
                | nil => intro j hj; simp at hj
                | cons a t ih =>
                  intro j hj
                  cases j with
                  | zero => simp
                  | succ j =>
                    simp only [List.set_cons_succ, List.take_succ_cons,
                      List.prod_cons, List.drop_succ_cons]
                    rw [ih j (by simpa using hj)]
                    ring
              simp [sumAlong, hset x.shape k hk]⟩
          else
            .ok ⟨x.shape.eraseIdx k, sumAlong x.shape x.data k, by
              have hk : k < x.shape.length := by
                unfold resolveAxis at h
                split at h <;> split at h <;> simp_all <;> omega
              have herase : ∀ (s : List Nat) (j : Nat), j < s.length →
                  (s.eraseIdx j).prod =
                    (s.take j).prod * (s.drop (j + 1)).prod := by
                intro s
                induction s with
                | nil => intro j hj; simp at hj
                | cons a t ih =>
                  intro j hj
                  cases j with
                  | zero => simp
                  | succ j =>
                    simp only [List.eraseIdx_cons_succ, List.take_succ_cons,
                      List.prod_cons, List.drop_succ_cons]
                    rw [ih j (by simpa using hj)]
                    ring
              simp [sumAlong, herase x.shape k hk]⟩

/-- np.squeeze(x, axis=axis): axis=None removes every size-1 dimension;
a concrete axis must name a size-1 dimension.  The flat data is unchanged. -/
def npSqueeze (x : Arr) (axis : Option Int) : Except Err Arr :=
  match axis with
  | none => .ok ⟨x.shape.filter (fun d => decide (d ≠ 1)), x.data, by
      have hfil : ∀ s : List Nat,
          (s.filter (fun d => decide (d ≠ 1))).prod = s.prod := by
        intro s
        induction s with
        | nil => rfl
        | cons a t ih =>
          by_cases h2 : a = 1
          · subst h2
            rw [List.filter_cons_of_neg (by simp), ih, List.prod_cons, one_mul]
          · rw [List.filter_cons_of_pos (by simp [h2]), List.prod_cons,
              List.prod_cons, ih]
      rw [x.hlen, hfil]⟩
  | some ax =>
      match h : resolveAxis ax x.shape.length with
      | none => .error .invalidAxis
      | some k =>
          if hu : x.shape.getD k 1 = 1 then
            .ok ⟨x.shape.eraseIdx k, x.data, by
              have hk : k < x.shape.length := by
                unfold resolveAxis at h
                split at h <;> split at h <;> simp_all <;> omega
              have hdec : ∀ (s : List Nat) (j : Nat), j < s.length →
                  s.prod =
                    (s.take j).prod * (s.getD j 1 * (s.drop (j + 1)).prod) := by
                intro s
                induction s with
                | nil => intro j hj; simp at hj
                | cons a t ih =>
                  intro j hj
                  cases j with
                  | zero => simp
                  | succ j =>
                    simp only [List.take_succ_cons, List.prod_cons,
                      List.getD_cons_succ, List.drop_succ_cons]
                    rw [ih j (by simpa using hj)]
                    ring
              have herase : ∀ (s : List Nat) (j : Nat), j < s.length →
                  (s.eraseIdx j).prod =
                    (s.take j).prod * (s.drop (j + 1)).prod := by
                intro s
                induction s with
                | nil => intro j hj; simp at hj
                | cons a t ih =>
                  intro j hj
                  cases j with
                  | zero => simp
                  | succ j =>
                    simp only [List.eraseIdx_cons_succ, List.take_succ_cons,
                      List.prod_cons, List.drop_succ_cons]
                    rw [ih j (by simpa using hj)]
                    ring
              rw [x.hlen, hdec x.shape k hk, hu, herase x.shape k hk]
              ring⟩
          else .error .squeezeNonUnit

/-- Flat index into a broadcast operand: each coordinate of the row-major
multi-index of p in shape s is reduced mod the corresponding dimension of w
(so a size-1 dimension of w is indexed at 0, numpy broadcasting). -/
def bIndex : List Nat → List Nat → Nat → Nat
  | _, [], _ => 0
  | [], _, _ => 0
  | _ :: s, e :: w, p => p / s.prod % e * w.prod + bIndex s w (p % s.prod)

/-- np.where(n * n > tiny, n, 1), elementwise on n. -/
def whereGuard (n : Arr) : Arr :=
  n.map (fun v => if tiny < v * v then v else 1)

/-- x / w with numpy-style broadcasting of w against the shape of x. -/
def divBroadcast (x w : Arr) : Arr :=
  ⟨x.shape,
    List.ofFn (fun p : Fin x.shape.prod =>
      x.data.getD p.val 0 / w.data.getD (bIndex x.shape w.shape p.val) 0),
    by simp⟩

/-- L2-norm of x along axis, as in the source:
a = np.maximum(np.max(np.abs(x)), np.finfo(x.dtype).tiny);
b = x / a;
return a * np.sqrt(np.sum(b * b, axis=axis, keepdims=keepdims)). -/
def norm (x : Arr) (axis : Option Int) (keepdims : Bool) : Except Err Arr :=
  match maxAll (x.map (fun t => |t|)) with
  | .error e => .error e
  | .ok m =>
      match npSum ((x.map (fun t => t / max m tiny)).map (fun t => t * t))
          axis keepdims with
      | .error e => .error e
      | .ok s => .ok (s.map (fun t => max m tiny * Real.sqrt t))

/-- normalize_and_return_norm from the source:
n = norm(x, axis=axis, keepdims=True);
y = x / np.where(n * n > np.finfo(x.dtype).tiny, n, 1);
if not keepdims: n = np.squeeze(n, axis=axis);
return y, n. -/
def normalize_and_return_norm (x : Arr) (axis : Option Int) (keepdims : Bool) :
    Except Err (Arr × Arr) :=
  match norm x axis true with
  | .error e => .error e
  | .ok n =>
      if keepdims then .ok (divBroadcast x (whereGuard n), n)
      else
        match npSqueeze n axis with
        | .error e => .error e
        | .ok n2 => .ok (divBroadcast x (whereGuard n), n2)

/-- normalize from the source:
y, _ = normalize_and_return_norm(x, axis=axis, keepdims=True); return y. -/
def normalize (x : Arr) (axis : Option Int) : Except Err Arr :=
  match normalize_and_return_norm x axis true with
  | .error e => .error e
  | .ok yn => .ok yn.1

/-- The naive L2-norm, written from the spec words: sqrt(sum(x*x, axis)).
Used only to state the refinement claims. -/
def naive_norm (x : Arr) (axis : Option Int) (keepdims : Bool) :
    Except Err Arr :=
  match npSum (x.map (fun t => t * t)) axis keepdims with
  | .error e => .error e
  | .ok s => .ok (s.map Real.sqrt)

/-- Concrete rank-1 all-zero array of shape [1]. -/
def arrZ : Arr := ⟨[1], [0], rfl⟩

/-- Concrete rank-0 array holding the scalar 0. -/
def arrS : Arr := ⟨[], [0], rfl⟩

/-- Concrete rank-1 array [3, 4] of shape [2]. -/
def arr2 : Arr := ⟨[2], [3, 4], rfl⟩

theorem Arr.ext_sd : ∀ {x y : Arr}, x.shape = y.shape → x.data = y.data → x = y
  | ⟨_, _, _⟩, ⟨_, _, _⟩, rfl, rfl => rfl

theorem prod_map_one (s : List Nat) : (s.map (fun _ => 1)).prod = 1 := by
  induction s with
  | nil => simp
  | cons a t ih => simp [ih]

theorem resolveAxis_lt {ax : Int} {r k : Nat} (h : resolveAxis ax r = some k) :
    k < r := by
  unfold resolveAxis at h
  split at h <;> split at h <;> simp_all <;> omega

theorem prod_decomp (s : List Nat) (k : Nat) (hk : k < s.length) :
    s.prod = (s.take k).prod * (s.getD k 1 * (s.drop (k + 1)).prod) := by
  induction s generalizing k with
  | nil => simp at hk
  | cons a t ih =>
    cases k with
    | zero => simp
    | succ k =>
      simp only [List.take_succ_cons, List.prod_cons, List.getD_cons_succ,
        List.drop_succ_cons]
      rw [ih k (by simpa using hk)]
      ring

theorem prod_set_one (s : List Nat) (k : Nat) (hk : k < s.length) :
    (s.set k 1).prod = (s.take k).prod * (s.drop (k + 1)).prod := by
  induction s generalizing k with
  | nil => simp at hk
  | cons a t ih =>
    cases k with
    | zero => simp
    | succ k =>
      simp only [List.set_cons_succ, List.take_succ_cons, List.prod_cons,
        List.drop_succ_cons]
      rw [ih k (by simpa using hk)]
      ring

theorem prod_eraseIdx (s : List Nat) (k : Nat) (hk : k < s.length) :
    (s.eraseIdx k).prod = (s.take k).prod * (s.drop (k + 1)).prod := by
  induction s generalizing k with
  | nil => simp at hk
  | cons a t ih =>
    cases k with
    | zero => simp
    | succ k =>
      simp only [List.eraseIdx_cons_succ, List.take_succ_cons, List.prod_cons,
        List.drop_succ_cons]
      rw [ih k (by simpa using hk)]
      ring

theorem prod_filter_ne_one (s : List Nat) :
    (s.filter (fun d => decide (d ≠ 1))).prod = s.prod := by
  induction s with
  | nil => rfl
  | cons a t ih =>
    by_cases h : a = 1
    · subst h
      rw [List.filter_cons_of_neg (by simp), ih, List.prod_cons, one_mul]
    · rw [List.filter_cons_of_pos (by simp [h]), List.prod_cons,
        List.prod_cons, ih]

theorem tiny_pos : 0 < tiny := by
  unfold tiny
  positivity

theorem amax_pos (m : ℝ) : 0 < max m tiny := lt_max_of_lt_right tiny_pos

theorem getD_map0 {f : ℝ → ℝ} (hf : f 0 = 0) (l : List ℝ) (i : Nat) :
    (l.map f).getD i 0 = f (l.getD i 0) := by
  rcases lt_or_ge i l.length with h | h
  · rw [List.getD_eq_getElem _ _ (by simpa using h), List.getD_eq_getElem _ _ h,
      List.getElem_map]
  · rw [List.getD_eq_default _ _ (by simpa using h), List.getD_eq_default _ _ h,
      hf]

theorem getD_nonneg {l : List ℝ} (h : ∀ v ∈ l, 0 ≤ v) (i : Nat) :
    0 ≤ l.getD i 0 := by
  rcases lt_or_ge i l.length with hi | hi
  · rw [List.getD_eq_getElem _ _ hi]
    exact h _ (List.getElem_mem hi)
  · rw [List.getD_eq_default _ _ hi]

theorem getD_ofFn_lt {n : Nat} (f : Fin n → ℝ) {i : Nat} (hi : i < n) :
    (List.ofFn f).getD i 0 = f ⟨i, hi⟩ := by
  rw [List.getD_eq_getElem _ _ (by simpa using hi)]
  simp

theorem ofFn_getD {l : List ℝ} {n : Nat} (hn : n = l.length) :
    List.ofFn (fun p : Fin n => l.getD p.val 0) = l := by
  subst hn
  apply List.ext_getElem
  · simp
  · intro i h1 h2
    simp [List.getD_eq_getElem _ _ h2]

theorem mem_le_foldl_max (t : List ℝ) (h : ℝ) :
    ∀ v ∈ h :: t, v ≤ t.foldl max h := by
  induction t generalizing h with
  | nil =>
    intro v hv
    rw [List.mem_singleton] at hv
    simp [hv]
  | cons a t ih =>
    intro v hv
    rcases List.mem_cons.mp hv with rfl | hv2
    · calc v ≤ max v a := le_max_left _ _
        _ ≤ t.foldl max (max v a) := ih (max v a) _ (List.mem_cons_self _ _)
    · rcases List.mem_cons.mp hv2 with rfl | hv3
      · calc v ≤ max h v := le_max_right _ _
          _ ≤ t.foldl max (max h v) := ih (max h v) _ (List.mem_cons_self _ _)
      · exact ih (max h a) v (List.mem_cons_of_mem _ hv3)

theorem maxAll_bound {x : Arr} {m : ℝ}
    (h : maxAll (x.map (fun t => |t|)) = .ok m) :
    ∀ i : Nat, |x.data.getD i 0| ≤ max m tiny := by
  intro i
  have hdata : (x.map (fun t => |t|)).data = x.data.map (fun t => |t|) := rfl
  rcases lt_or_ge i x.data.length with hi | hi
  · have hmem : |x.data.getD i 0| ∈ x.data.map (fun t => |t|) := by
      rw [List.getD_eq_getElem _ _ hi]
      exact List.mem_map_of_mem _ (List.getElem_mem hi)
    unfold maxAll at h
    rw [hdata] at h
    cases hd : x.data.map (fun t => |t|) with
    | nil => rw [hd] at h; exact absurd h (by simp)
    | cons b t =>
      rw [hd] at h hmem
      simp only [Except.ok.injEq] at h
      exact le_trans (h ▸ mem_le_foldl_max t b _ hmem) (le_max_left _ _)
  · rw [List.getD_eq_default _ _ hi]
    simpa using (amax_pos m).le

theorem sum_map_sq_div (d : List ℝ) (a : ℝ) :
    (d.map (fun t => t / a * (t / a))).sum =
      (d.map (fun t => t * t)).sum / (a * a) := by
  induction d with
  | nil => simp
  | cons v t ih =>
    rw [List.map_cons, List.map_cons, List.sum_cons, List.sum_cons, ih,
      add_div, div_mul_div_comm]

theorem sumAlong_map_sq_div (s : List Nat) (d : List ℝ) (k : Nat) (a : ℝ) :
    sumAlong s (d.map (fun t => t / a * (t / a))) k =
      (sumAlong s (d.map (fun t => t * t)) k).map (fun t => t / (a * a)) := by
  unfold sumAlong
  rw [List.map_ofFn]
  refine congrArg _ (funext fun p => ?_)
  simp only [Function.comp_apply]
  rw [Finset.sum_div]
  refine Finset.sum_congr rfl (fun j _ => ?_)
  rw [getD_map0 (by simp) d, getD_map0 (by simp) d, div_mul_div_comm]

theorem sum_sq_nonneg (d : List ℝ) : 0 ≤ (d.map (fun t => t * t)).sum := by
  induction d with
  | nil => simp
  | cons v t ih =>
    simp only [List.map_cons, List.sum_cons]
    exact add_nonneg (mul_self_nonneg v) ih

theorem sumAlong_sq_nonneg (s : List Nat) (d : List ℝ) (k : Nat) :
    ∀ v ∈ sumAlong s (d.map (fun t => t * t)) k, 0 ≤ v := by
  intro v hv
  unfold sumAlong at hv
  rw [List.mem_ofFn] at hv
  obtain ⟨p, rfl⟩ := hv
  refine Finset.sum_nonneg fun j _ => ?_
  rw [getD_map0 (by simp) d]
  exact mul_self_nonneg _

theorem npSum_sq_nonneg {z s0 : Arr} {axis : Option Int} {kd : Bool}
    (h : npSum (z.map (fun t => t * t)) axis kd = .ok s0) :
    ∀ v ∈ s0.data, 0 ≤ v := by
  unfold npSum at h
  split at h
  · split at h <;>
      · simp only [Except.ok.injEq] at h
        subst h
        intro v hv
        rw [List.mem_singleton] at hv
        subst hv
        exact sum_sq_nonneg _
  · split at h
    · exact absurd h (by simp)
    · split at h <;>
        · simp only [Except.ok.injEq] at h
          subst h
          exact sumAlong_sq_nonneg _ z.data _

theorem mul_sqrt_div_sq {a S : ℝ} (ha : 0 < a) (hS : 0 ≤ S) :
    a * Real.sqrt (S / (a * a)) = Real.sqrt S := by
  rw [Real.sqrt_div hS, Real.sqrt_mul_self ha.le, mul_comm,
    div_mul_cancel₀ _ ha.ne']

theorem npSum_none_eq (x : Arr) (kd : Bool) :
    npSum x none kd =
      .ok ⟨(if kd then x.shape.map (fun _ => 1) else []), [x.data.sum], by
        cases kd <;> simp [prod_map_one]⟩ := by
  unfold npSum
  cases kd <;> rfl

theorem npSum_some_eq (x : Arr) (ax : Int) (kd : Bool) {k : Nat}
    (hres : resolveAxis ax x.shape.length = some k) :
    npSum x (some ax) kd =
      .ok ⟨(if kd then x.shape.set k 1 else x.shape.eraseIdx k),
        sumAlong x.shape x.data k, by
          cases kd <;>
            simp [sumAlong, prod_set_one _ _ (resolveAxis_lt hres),
              prod_eraseIdx _ _ (resolveAxis_lt hres)]⟩ := by
  unfold npSum
  split
  · rename_i heq
    exact absurd heq (by simp)
  · rename_i k2 heq
    injection heq with heq2
    subst heq2
    split
    · rename_i hres2
      rw [hres] at hres2
      exact absurd hres2 (by simp)
    · rename_i k3 hres3
      rw [hres] at hres3
      injection hres3 with hk
      subst hk
      cases kd <;> rfl

theorem npSum_some_invalid (x : Arr) (ax : Int) (kd : Bool)
    (hres : resolveAxis ax x.shape.length = none) :
    npSum x (some ax) kd = .error .invalidAxis := by
  unfold npSum
  split
  · rename_i heq
    exact absurd heq (by simp)
  · rename_i k2 heq
    injection heq with heq2
    subst heq2
    split
    · rfl
    · rename_i k3 hres3
      rw [hres] at hres3
      exact absurd hres3 (by simp)

theorem npSqueeze_none_eq (x : Arr) :
    npSqueeze x none =
      .ok ⟨x.shape.filter (fun d => decide (d ≠ 1)), x.data, by
        rw [x.hlen, prod_filter_ne_one]⟩ := rfl

theorem npSqueeze_some_eq (x : Arr) (ax : Int) {k : Nat}
    (hres : resolveAxis ax x.shape.length = some k)
    (hu : x.shape.getD k 1 = 1) :
    npSqueeze x (some ax) =
      .ok ⟨x.shape.eraseIdx k, x.data, by
        rw [x.hlen, prod_decomp x.shape k (resolveAxis_lt hres), hu,
          prod_eraseIdx _ _ (resolveAxis_lt hres)]
        ring⟩ := by
  unfold npSqueeze
  split
  · rename_i heq
    exact absurd heq (by simp)
  · rename_i k2 heq
    injection heq with heq2
    subst heq2
    split
    · rename_i hres2
      rw [hres] at hres2
      exact absurd hres2 (by simp)
    · rename_i k3 hres3
      rw [hres] at hres3
      injection hres3 with hk
      subst hk
      rw [dif_pos hu]

theorem npSqueeze_some_invalid (x : Arr) (ax : Int)
    (hres : resolveAxis ax x.shape.length = none) :
    npSqueeze x (some ax) = .error .invalidAxis := by
  unfold npSqueeze
  split
  · rename_i heq
    exact absurd heq (by simp)
  · rename_i k2 heq
    injection heq with heq2
    subst heq2
    split
    · rfl
    · rename_i k3 hres3
      rw [hres] at hres3
      exact absurd hres3 (by simp)

theorem norm_ok_elim {x : Arr} {axis : Option Int} {kd : Bool} {r : Arr}
    (h : norm x axis kd = .ok r) :
    ∃ m s, maxAll (x.map (fun t => |t|)) = .ok m ∧
      npSum ((x.map (fun t => t / max m tiny)).map (fun t => t * t))
        axis kd = .ok s ∧
      r = s.map (fun t => max m tiny * Real.sqrt t) := by
  unfold norm at h
  split at h
  · exact absurd h (by simp)
  · rename_i m hm
    split at h
    · exact absurd h (by simp)
    · rename_i s hs
      simp only [Except.ok.injEq] at h
      exact ⟨m, s, hm, hs, h.symm⟩

theorem norm_ok_intro {x : Arr} {axis : Option Int} {kd : Bool} {m : ℝ} {s : Arr}
    (hm : maxAll (x.map (fun t => |t|)) = .ok m)
    (hs : npSum ((x.map (fun t => t / max m tiny)).map (fun t => t * t))
      axis kd = .ok s) :
    norm x axis kd = .ok (s.map (fun t => max m tiny * Real.sqrt t)) := by
  unfold norm
  simp only [hm, hs]

theorem norm_error_intro {x : Arr} {axis : Option Int} {kd : Bool} {m : ℝ}
    {e : Err} (hm : maxAll (x.map (fun t => |t|)) = .ok m)
    (hs : npSum ((x.map (fun t => t / max m tiny)).map (fun t => t * t))
      axis kd = .error e) :
    norm x axis kd = .error e := by
  unfold norm
  simp only [hm, hs]

theorem npSum_map_sq_div (x : Arr) (axis : Option Int) (kd : Bool) (a : ℝ) :
    npSum ((x.map (fun t => t / a)).map (fun t => t * t)) axis kd =
      Except.map (fun s : Arr => s.map (fun t => t / (a * a)))
        (npSum (x.map (fun t => t * t)) axis kd) := by
  cases axis with
  | none =>
    rw [npSum_none_eq, npSum_none_eq]
    simp only [Except.map]
    refine congrArg Except.ok (Arr.ext_sd rfl ?_)
    show [((x.data.map (fun t => t / a)).map (fun t => t * t)).sum] =
      ((⟨_, [(x.data.map (fun t => t * t)).sum], _⟩ : Arr).map
        (fun t => t / (a * a))).data
    show [((x.data.map (fun t => t / a)).map (fun t => t * t)).sum] =
      [(x.data.map (fun t => t * t)).sum].map (fun t => t / (a * a))
    rw [List.map_map,
      show ((fun t => t * t) ∘ (fun t : ℝ => t / a)) =
        fun t => t / a * (t / a) from rfl,
      sum_map_sq_div]
    rfl
  | some ax =>
    cases hres : resolveAxis ax x.shape.length with
    | none =>
      have h1 : resolveAxis ax
          ((x.map (fun t => t / a)).map (fun t => t * t)).shape.length =
          none := hres
      have h2 : resolveAxis ax (x.map (fun t => t * t)).shape.length =
          none := hres
      rw [npSum_some_invalid _ _ kd h1, npSum_some_invalid _ _ kd h2]
      rfl
    | some k =>
      have h1 : resolveAxis ax
          ((x.map (fun t => t / a)).map (fun t => t * t)).shape.length =
          some k := hres
      have h2 : resolveAxis ax (x.map (fun t => t * t)).shape.length =
          some k := hres
      rw [npSum_some_eq _ _ kd h1, npSum_some_eq _ _ kd h2]
      simp only [Except.map]
      refine congrArg Except.ok (Arr.ext_sd rfl ?_)
      show sumAlong x.shape
        ((x.data.map (fun t => t / a)).map (fun t => t * t)) k =
        (sumAlong x.shape (x.data.map (fun t => t * t)) k).map
          (fun t => t / (a * a))
      rw [List.map_map,
        show ((fun t => t * t) ∘ (fun t : ℝ => t / a)) =
          fun t => t / a * (t / a) from rfl,
        sumAlong_map_sq_div]

theorem norm_eq_naive_aux {x : Arr} {axis : Option Int} {kd : Bool} {r : Arr}
    (h : norm x axis kd = .ok r) : naive_norm x axis kd = .ok r := by
  obtain ⟨m, s, hm, hs, hr⟩ := norm_ok_elim h
  rw [npSum_map_sq_div] at hs
  cases hxx : npSum (x.map (fun t => t * t)) axis kd with
  | error e =>
    rw [hxx] at hs
    exact absurd hs (by simp [Except.map])
  | ok s0 =>
    rw [hxx] at hs
    simp only [Except.map, Except.ok.injEq] at hs
    unfold naive_norm
    rw [hxx]
    refine congrArg Except.ok ?_
    rw [hr, ← hs]
    symm
    refine Arr.ext_sd rfl ?_
    show (s0.data.map (fun t => t / (max m tiny * max m tiny))).map
        (fun t => max m tiny * Real.sqrt t) = s0.data.map Real.sqrt
    rw [List.map_map]
    refine List.map_congr_left (fun v hv => ?_)
    exact mul_sqrt_div_sq (amax_pos m) (npSum_sq_nonneg hxx v hv)

theorem nrn_true_eq {x : Arr} {axis : Option Int} {n : Arr}
    (hn : norm x axis true = .ok n) :
    normalize_and_return_norm x axis true =
      .ok (divBroadcast x (whereGuard n), n) := by
  unfold normalize_and_return_norm
  simp only [hn, if_true]

theorem nrn_false_eq {x : Arr} {axis : Option Int} {n n2 : Arr}
    (hn : norm x axis true = .ok n) (hq : npSqueeze n axis = .ok n2) :
    normalize_and_return_norm x axis false =
      .ok (divBroadcast x (whereGuard n), n2) := by
  unfold normalize_and_return_norm
  simp only [hn, hq, Bool.false_eq_true, if_false]

theorem nrn_error {x : Arr} {axis : Option Int} (kd : Bool) {e : Err}
    (hn : norm x axis true = .error e) :
    normalize_and_return_norm x axis kd = .error e := by
  unfold normalize_and_return_norm
  simp only [hn]

theorem nrn_ok_elim {x : Arr} {axis : Option Int} {kd : Bool} {y n : Arr}
    (h : normalize_and_return_norm x axis kd = .ok (y, n)) :
    ∃ n0, norm x axis true = .ok n0 ∧ y = divBroadcast x (whereGuard n0) ∧
      ((kd = true ∧ n = n0) ∨ (kd = false ∧ npSqueeze n0 axis = .ok n)) := by
  unfold normalize_and_return_norm at h
  split at h
  · exact absurd h (by simp)
  · rename_i n0 hn
    split at h
    · rename_i hkd
      simp only [Except.ok.injEq, Prod.mk.injEq] at h
      exact ⟨n0, hn, h.1.symm, Or.inl ⟨hkd, h.2.symm⟩⟩
    · rename_i hkd
      split at h
      · exact absurd h (by simp)
      · rename_i n2 hq
        simp only [Except.ok.injEq, Prod.mk.injEq] at h
        exact ⟨n0, hn, h.1.symm,
          Or.inr ⟨Bool.not_eq_true kd ▸ hkd, h.2 ▸ hq⟩⟩

theorem normalize_eq (x : Arr) (axis : Option Int) :
    normalize x axis = Except.map (fun yn : Arr × Arr => yn.1)
      (normalize_and_return_norm x axis true) := by
  unfold normalize
  cases normalize_and_return_norm x axis true <;> rfl

theorem norm_shape_none {x : Arr} {kd : Bool} {n : Arr}
    (h : norm x none kd = .ok n) :
    n.shape = if kd then x.shape.map (fun _ => 1) else [] := by
  obtain ⟨m, s, hm, hs, hr⟩ := norm_ok_elim h
  rw [npSum_none_eq] at hs
  simp only [Except.ok.injEq] at hs
  rw [hr, ← hs]
  rfl

theorem norm_shape_some {x : Arr} {ax : Int} {kd : Bool} {n : Arr}
    (h : norm x (some ax) kd = .ok n) :
    ∃ k, resolveAxis ax x.shape.length = some k ∧
      n.shape = if kd then x.shape.set k 1 else x.shape.eraseIdx k := by
  obtain ⟨m, s, hm, hs, hr⟩ := norm_ok_elim h
  cases hres : resolveAxis ax x.shape.length with
  | none =>
    have h1 : resolveAxis ax
        ((x.map (fun t => t / max m tiny)).map
          (fun t => t * t)).shape.length = none := hres
    rw [npSum_some_invalid _ _ kd h1] at hs
    exact absurd hs (by simp)
  | some k =>
    have h1 : resolveAxis ax
        ((x.map (fun t => t / max m tiny)).map
          (fun t => t * t)).shape.length = some k := hres
    rw [npSum_some_eq _ _ kd h1] at hs
    simp only [Except.ok.injEq] at hs
    refine ⟨k, rfl, ?_⟩
    rw [hr, ← hs]
    rfl

theorem entries_pos_of_prod_pos {s : List Nat} (h : 0 < s.prod) :
    ∀ e ∈ s, 0 < e := by
  intro e he
  rcases Nat.eq_zero_or_pos e with rfl | hp
  · rw [List.prod_eq_zero he] at h
    exact absurd h (by simp)
  · exact hp

theorem bIndex_lt (s w : List Nat) (p : Nat) (hw : ∀ e ∈ w, 0 < e) :
    bIndex s w p < w.prod := by
  induction w generalizing s p with
  | nil =>
    cases s <;> simp [bIndex]
  | cons e w ih =>
    cases s with
    | nil =>
      have : 0 < (e :: w).prod := List.prod_pos hw
      simpa [bIndex] using this
    | cons d s =>
      show p / s.prod % e * w.prod + bIndex s w (p % s.prod) < (e :: w).prod
      have he : 0 < e := hw e (List.mem_cons_self _ _)
      have hb := ih s (p % s.prod)
        (fun e2 h2 => hw e2 (List.mem_cons_of_mem _ h2))
      obtain ⟨e2, rfl⟩ : ∃ e2, e = e2 + 1 := ⟨e - 1, by omega⟩
      have hm : p / s.prod % (e2 + 1) ≤ e2 := by
        have := Nat.mod_lt (p / s.prod) (show 0 < e2 + 1 by omega)
        omega
      calc p / s.prod % (e2 + 1) * w.prod + bIndex s w (p % s.prod)
          ≤ e2 * w.prod + bIndex s w (p % s.prod) :=
            Nat.add_le_add_right (Nat.mul_le_mul_right _ hm) _
        _ < e2 * w.prod + w.prod := Nat.add_lt_add_left hb _
        _ = (e2 + 1) * w.prod := by ring
        _ = ((e2 + 1) :: w).prod := by rw [List.prod_cons]

theorem getD_map_lt (f : ℝ → ℝ) (l : List ℝ) {i : Nat} (hi : i < l.length) :
    (l.map f).getD i 0 = f (l.getD i 0) := by
  rw [List.getD_eq_getElem _ _ (by simpa using hi),
    List.getD_eq_getElem _ _ hi, List.getElem_map]

theorem filter_map_one (s : List Nat) :
    (s.map (fun _ => 1)).filter (fun d => decide (d ≠ 1)) = [] := by
  induction s with
  | nil => rfl
  | cons a t ih =>
    rw [List.map_cons, List.filter_cons_of_neg (by simp), ih]

theorem eraseIdx_set (s : List Nat) (k : Nat) (a : Nat) :
    (s.set k a).eraseIdx k = s.eraseIdx k := by
  induction s generalizing k with
  | nil => cases k <;> rfl
  | cons b t ih =>
    cases k with
    | zero => rfl
    | succ k =>
      simp only [List.set_cons_succ, List.eraseIdx_cons_succ, ih]

theorem getD_set_self (d : Nat) {s : List Nat} {k : Nat} (hk : k < s.length) :
    (s.set k 1).getD k d = 1 := by
  induction s generalizing k with
  | nil => simp at hk
  | cons b t ih =>
    cases k with
    | zero => rfl
    | succ k =>
      simp only [List.set_cons_succ, List.getD_cons_succ]
      exact ih (by simpa using hk)

theorem length_eraseIdx_lt (s : List Nat) (k : Nat) (hk : k < s.length) :
    (s.eraseIdx k).length = s.length - 1 := by
  induction s generalizing k with
  | nil => simp at hk
  | cons a t ih =>
    cases k with
    | zero => simp
    | succ k =>
      simp only [List.eraseIdx_cons_succ, List.length_cons]
      rw [ih k (by simpa using hk)]
      have : 0 < t.length := by
        have := hk
        simp at this
        omega
      omega

theorem maxAll_eq (x : Arr) {h0 : ℝ} {t0 : List ℝ} (hd : x.data = h0 :: t0) :
    maxAll x = .ok (t0.foldl max h0) := by
  unfold maxAll
  split
  · rename_i hnil
    rw [hd] at hnil
    exact absurd hnil (by simp)
  · rename_i h1 t1 hcons
    rw [hd] at hcons
    injection hcons with e1 e2
    subst e1
    subst e2
    rfl

theorem maxAll_map_abs_eq {x : Arr} {h0 : ℝ} {t0 : List ℝ}
    (hd : x.data = h0 :: t0) :
    maxAll (x.map (fun t => |t|)) =
      .ok ((t0.map (fun t => |t|)).foldl max |h0|) := by
  apply maxAll_eq
  show x.data.map (fun t => |t|) = |h0| :: t0.map (fun t => |t|)
  rw [hd, List.map_cons]

theorem maxAll_ok_of_ne_nil {x : Arr} (h : x.data ≠ []) :
    ∃ m, maxAll (x.map (fun t => |t|)) = .ok m := by
  cases hd : x.data with
  | nil => exact absurd hd h
  | cons h0 t0 => exact ⟨_, maxAll_map_abs_eq hd⟩

theorem foldl_max_mem (t : List ℝ) (h : ℝ) : t.foldl max h ∈ h :: t := by
  induction t generalizing h with
  | nil => simp
  | cons a t ih =>
    have h2 := ih (max h a)
    show List.foldl max (max h a) t ∈ h :: a :: t
    rcases List.mem_cons.mp h2 with he | ht
    · rw [he]
      rcases max_choice h a with h1 | h1 <;> rw [h1]
      · exact List.mem_cons_self _ _
      · exact List.mem_cons_of_mem _ (List.mem_cons_self _ _)
    · exact List.mem_cons_of_mem _ (List.mem_cons_of_mem _ ht)

theorem maxAll_mem {x : Arr} {m : ℝ} (h : maxAll x = .ok m) : m ∈ x.data := by
  unfold maxAll at h
  split at h
  · exact absurd h (by simp)
  · rename_i h0 t0 hd
    simp only [Except.ok.injEq] at h
    rw [hd, ← h]
    exact foldl_max_mem t0 h0

theorem maxAll_abs_zero {x : Arr} {m : ℝ} (hz : ∀ v ∈ x.data, v = 0)
    (h : maxAll (x.map (fun t => |t|)) = .ok m) : m = 0 := by
  have hmem : m ∈ x.data.map (fun t => |t|) := maxAll_mem h
  obtain ⟨v, hv, rfl⟩ := List.mem_map.mp hmem
  rw [hz v hv, abs_zero]

theorem all_zero_getD {d : List ℝ} (hz : ∀ v ∈ d, v = 0) (i : Nat) :
    d.getD i 0 = 0 := by
  rcases lt_or_ge i d.length with hi | hi
  · rw [List.getD_eq_getElem _ _ hi]
    exact hz _ (List.getElem_mem hi)
  · rw [List.getD_eq_default _ _ hi]

theorem npSum_zero {z : Arr} (hz : ∀ v ∈ z.data, v = 0) {axis : Option Int}
    {kd : Bool} {s : Arr} (h : npSum z axis kd = .ok s) :
    ∀ v ∈ s.data, v = 0 := by
  unfold npSum at h
  split at h
  · split at h <;>
      · simp only [Except.ok.injEq] at h
        subst h
        intro v hv
        rw [List.mem_singleton] at hv
        subst hv
        exact List.sum_eq_zero hz
  · split at h
    · exact absurd h (by simp)
    · split at h <;>
        · simp only [Except.ok.injEq] at h
          subst h
          intro v hv
          unfold sumAlong at hv
          rw [List.mem_ofFn] at hv
          obtain ⟨p, rfl⟩ := hv
          exact Finset.sum_eq_zero (fun j _ => all_zero_getD hz _)

theorem norm_nonneg_aux {x : Arr} {axis : Option Int} {kd : Bool} {r : Arr}
    (h : norm x axis kd = .ok r) : ∀ v ∈ r.data, 0 ≤ v := by
  obtain ⟨m, s, hm, hs, hr⟩ := norm_ok_elim h
  intro v hv
  rw [hr] at hv
  have hv2 : v ∈ s.data.map (fun t => max m tiny * Real.sqrt t) := hv
  obtain ⟨u, hu, rfl⟩ := List.mem_map.mp hv2
  exact mul_nonneg (amax_pos m).le (Real.sqrt_nonneg _)

theorem norm_zero_aux {x : Arr} {axis : Option Int} {kd : Bool} {r : Arr}
    (hz : ∀ v ∈ x.data, v = 0) (h : norm x axis kd = .ok r) :
    ∀ v ∈ r.data, v = 0 := by
  obtain ⟨m, s, hm, hs, hr⟩ := norm_ok_elim h
  have hm0 : m = 0 := maxAll_abs_zero hz hm
  subst hm0
  have hzz : ∀ v ∈ ((x.map (fun t => t / max 0 tiny)).map
      (fun t => t * t)).data, v = 0 := by
    intro v hv
    have hv2 : v ∈ (x.data.map (fun t => t / max 0 tiny)).map
        (fun t => t * t) := hv
    obtain ⟨u, hu, rfl⟩ := List.mem_map.mp hv2
    obtain ⟨u2, hu2, rfl⟩ := List.mem_map.mp hu
    rw [hz u2 hu2]
    simp
  have hs0 := npSum_zero hzz hs
  intro v hv
  rw [hr] at hv
  have hv2 : v ∈ s.data.map (fun t => max 0 tiny * Real.sqrt t) := hv
  obtain ⟨u, hu, rfl⟩ := List.mem_map.mp hv2
  rw [hs0 u hu, Real.sqrt_zero, mul_zero]

theorem npSqueeze_data {n : Arr} {axis : Option Int} {n2 : Arr}
    (h : npSqueeze n axis = .ok n2) : n2.data = n.data := by
  unfold npSqueeze at h
  split at h
  · simp only [Except.ok.injEq] at h
    subst h
    rfl
  · split at h
    · exact absurd h (by simp)
    · split at h
      · simp only [Except.ok.injEq] at h
        subst h
        rfl
      · exact absurd h (by simp)

theorem npSqueeze_ok_elim {x : Arr} {axis : Option Int} {n2 : Arr}
    (h : npSqueeze x axis = .ok n2) :
    n2.data = x.data ∧
      ((axis = none ∧
        n2.shape = x.shape.filter (fun d => decide (d ≠ 1))) ∨
       (∃ ax k, axis = some ax ∧ resolveAxis ax x.shape.length = some k ∧
         n2.shape = x.shape.eraseIdx k)) := by
  unfold npSqueeze at h
  split at h
  · simp only [Except.ok.injEq] at h
    subst h
    exact ⟨rfl, Or.inl ⟨rfl, rfl⟩⟩
  · rename_i ax
    split at h
    · exact absurd h (by simp)
    · rename_i k hres
      split at h
      · simp only [Except.ok.injEq] at h
        subst h
        exact ⟨rfl, Or.inr ⟨ax, k, rfl, hres, rfl⟩⟩
      · exact absurd h (by simp)

theorem norm_true_entries_pos {x : Arr} {axis : Option Int} {n : Arr}
    (hn : norm x axis true = .ok n) (hx : 0 < x.shape.prod) :
    ∀ e ∈ n.shape, 0 < e := by
  cases axis with
  | none =>
    have hsh := norm_shape_none hn
    rw [if_pos rfl] at hsh
    rw [hsh]
    intro e he
    obtain ⟨_, _, rfl⟩ := List.mem_map.mp he
    exact one_pos
  | some ax =>
    obtain ⟨k, hres, hsh⟩ := norm_shape_some hn
    rw [if_pos rfl] at hsh
    rw [hsh]
    intro e he
    rcases List.mem_or_eq_of_mem_set he with h2 | rfl
    · exact entries_pos_of_prod_pos hx e h2
    · exact one_pos

theorem divBroadcast_getD {x w : Arr} {p : Nat} (hp : p < x.shape.prod) :
    (divBroadcast x w).data.getD p 0 =
      x.data.getD p 0 / w.data.getD (bIndex x.shape w.shape p) 0 :=
  getD_ofFn_lt (fun q : Fin x.shape.prod =>
    x.data.getD q.val 0 / w.data.getD (bIndex x.shape w.shape q.val) 0) hp

theorem whereGuard_getD {n : Arr} {q : Nat} (hq : q < n.data.length) :
    (whereGuard n).data.getD q 0 =
      if tiny < n.data.getD q 0 * n.data.getD q 0 then n.data.getD q 0
      else 1 := by
  show (n.data.map _).getD q 0 = _
  rw [getD_map_lt _ _ hq]

theorem normalize_ok_elim {x : Arr} {axis : Option Int} {y : Arr}
    (h : normalize x axis = .ok y) :
    ∃ n2, normalize_and_return_norm x axis true = .ok (y, n2) := by
  rw [normalize_eq] at h
  cases hnn : normalize_and_return_norm x axis true with
  | error e =>
    rw [hnn] at h
    exact absurd h (by simp [Except.map])
  | ok yn =>
    rw [hnn] at h
    simp only [Except.map, Except.ok.injEq] at h
    refine ⟨yn.2, ?_⟩
    rw [← h]

theorem nrn_pass_aux {x : Arr} {axis : Option Int} {kd : Bool} {y nret n : Arr}
    {p : Nat} (hnrm : normalize_and_return_norm x axis kd = .ok (y, nret))
    (hn : norm x axis true = .ok n) (hp : p < x.data.length)
    (hsmall : n.data.getD (bIndex x.shape n.shape p) 0 *
      n.data.getD (bIndex x.shape n.shape p) 0 ≤ tiny) :
    y.data.getD p 0 = x.data.getD p 0 := by
  obtain ⟨n0, hn0, hy, _⟩ := nrn_ok_elim hnrm
  rw [hn] at hn0
  injection hn0 with e
  subst e
  have hx : 0 < x.shape.prod := by
    rw [← x.hlen]
    omega
  have hppos : p < x.shape.prod := by
    rw [← x.hlen]
    exact hp
  have hpos : ∀ e ∈ n.shape, 0 < e := norm_true_entries_pos hn hx
  have hq : bIndex x.shape n.shape p < n.data.length := by
    rw [n.hlen]
    exact bIndex_lt _ _ _ hpos
  rw [hy, divBroadcast_getD hppos]
  have hgd : (whereGuard n).data.getD
      (bIndex x.shape (whereGuard n).shape p) 0 = 1 := by
    have hq2 : bIndex x.shape (whereGuard n).shape p < n.data.length := hq
    rw [whereGuard_getD hq2]
    exact if_neg (not_lt.mpr hsmall)
  rw [hgd, div_one]

theorem divBroadcast_guard_eq_self {x n : Arr} (hzn : ∀ v ∈ n.data, v = 0)
    (hpos : ∀ e ∈ n.shape, 0 < e) :
    divBroadcast x (whereGuard n) = x := by
  refine Arr.ext_sd rfl ?_
  show List.ofFn (fun p : Fin x.shape.prod =>
      x.data.getD p.val 0 /
        (whereGuard n).data.getD
          (bIndex x.shape (whereGuard n).shape p.val) 0) = x.data
  have hdiv : ∀ p : Fin x.shape.prod,
      (whereGuard n).data.getD
        (bIndex x.shape (whereGuard n).shape p.val) 0 = 1 := by
    intro p
    have hq : bIndex x.shape (whereGuard n).shape p.val < n.data.length := by
      rw [n.hlen]
      exact bIndex_lt _ _ _ hpos
    rw [whereGuard_getD hq, all_zero_getD hzn, mul_zero]
    exact if_neg (lt_asymm tiny_pos)
  have hfn : (fun p : Fin x.shape.prod =>
      x.data.getD p.val 0 /
        (whereGuard n).data.getD
          (bIndex x.shape (whereGuard n).shape p.val) 0) =
      fun p : Fin x.shape.prod => x.data.getD p.val 0 := by
    funext p
    rw [hdiv p, div_one]
  rw [hfn]
  exact ofFn_getD x.hlen.symm

theorem normalize_zero_aux {x : Arr} {axis : Option Int} {y : Arr}
    (hne : x.data ≠ []) (hz : ∀ v ∈ x.data, v = 0)
    (h : normalize x axis = .ok y) : y = x := by
  obtain ⟨n2, hnn⟩ := normalize_ok_elim h
  obtain ⟨n0, hn0, hy, _⟩ := nrn_ok_elim hnn
  have hzn : ∀ v ∈ n0.data, v = 0 := norm_zero_aux hz hn0
  have hx : 0 < x.shape.prod := by
    rw [← x.hlen]
    cases hd : x.data with
    | nil => exact absurd hd hne
    | cons a t => simp [hd]
  have hpos := norm_true_entries_pos hn0 hx
  rw [hy]
  exact divBroadcast_guard_eq_self hzn hpos

theorem norm_false_of_true {x : Arr} {axis : Option Int} {n0 : Arr}
    (h : norm x axis true = .ok n0) :
    ∃ nf, norm x axis false = .ok nf ∧ nf.data = n0.data ∧
      ((axis = none ∧ n0.shape = x.shape.map (fun _ => 1) ∧
        nf.shape = []) ∨
       (∃ ax k, axis = some ax ∧ resolveAxis ax x.shape.length = some k ∧
         n0.shape = x.shape.set k 1 ∧ nf.shape = x.shape.eraseIdx k)) := by
  obtain ⟨m, s, hm, hs, hr⟩ := norm_ok_elim h
  cases axis with
  | none =>
    rw [npSum_none_eq] at hs
    simp only [Except.ok.injEq] at hs
    refine ⟨_, norm_ok_intro hm (npSum_none_eq _ false), ?_,
      Or.inl ⟨rfl, ?_, rfl⟩⟩
    · rw [hr, ← hs]
      rfl
    · rw [hr, ← hs]
      rfl
  | some ax =>
    cases hres : resolveAxis ax x.shape.length with
    | none =>
      have h1 : resolveAxis ax
          ((x.map (fun t => t / max m tiny)).map
            (fun t => t * t)).shape.length = none := hres
      rw [npSum_some_invalid _ _ true h1] at hs
      exact absurd hs (by simp)
    | some k =>
      have h1 : resolveAxis ax
          ((x.map (fun t => t / max m tiny)).map
            (fun t => t * t)).shape.length = some k := hres
      rw [npSum_some_eq _ _ true h1] at hs
      simp only [Except.ok.injEq] at hs
      refine ⟨_, norm_ok_intro hm (npSum_some_eq _ _ false h1), ?_,
        Or.inr ⟨ax, k, rfl, hres, ?_, rfl⟩⟩
      · rw [hr, ← hs]
        rfl
      · rw [hr, ← hs]
        rfl

theorem maxAll_arrZ : maxAll (arrZ.map (fun t => |t|)) = .ok 0 := by
  have h := maxAll_map_abs_eq (show arrZ.data = [(0 : ℝ)] from rfl)
  simpa using h

theorem norm_arrZ_false : norm arrZ none false = .ok arrS := by
  have hs : npSum ((arrZ.map (fun t => t / max 0 tiny)).map (fun t => t * t))
      none false = .ok ⟨[], [(0 : ℝ)], by simp⟩ := by
    rw [npSum_none_eq]
    refine congrArg Except.ok (Arr.ext_sd rfl ?_)
    show [((arrZ.data.map (fun t => t / max 0 tiny)).map
      (fun t => t * t)).sum] = [(0 : ℝ)]
    simp [arrZ]
  have h2 := norm_ok_intro maxAll_arrZ hs
  rw [h2]
  refine congrArg Except.ok (Arr.ext_sd rfl ?_)
  show [max 0 tiny * Real.sqrt 0] = [(0 : ℝ)]
  rw [Real.sqrt_zero, mul_zero]

theorem norm_arrZ_true : norm arrZ none true = .ok arrZ := by
  have hs : npSum ((arrZ.map (fun t => t / max 0 tiny)).map (fun t => t * t))
      none true = .ok ⟨[1], [(0 : ℝ)], by simp⟩ := by
    rw [npSum_none_eq]
    refine congrArg Except.ok (Arr.ext_sd rfl ?_)
    show [((arrZ.data.map (fun t => t / max 0 tiny)).map
      (fun t => t * t)).sum] = [(0 : ℝ)]
    simp [arrZ]
  have h2 := norm_ok_intro maxAll_arrZ hs
  rw [h2]
  refine congrArg Except.ok (Arr.ext_sd rfl ?_)
  show [max 0 tiny * Real.sqrt 0] = [(0 : ℝ)]
  rw [Real.sqrt_zero, mul_zero]

theorem resolveAxis_arrZ : resolveAxis 0 arrZ.shape.length = some 0 := by
  decide

theorem norm_arrZ_ax_false : norm arrZ (some 0) false = .ok arrS := by
  have hres : resolveAxis 0
      ((arrZ.map (fun t => t / max 0 tiny)).map
        (fun t => t * t)).shape.length = some 0 := resolveAxis_arrZ
  have hs : npSum ((arrZ.map (fun t => t / max 0 tiny)).map (fun t => t * t))
      (some 0) false = .ok ⟨[], [(0 : ℝ)], by simp⟩ := by
    rw [npSum_some_eq _ _ false hres]
    refine congrArg Except.ok (Arr.ext_sd rfl ?_)
    show sumAlong [1] ((arrZ.data.map (fun t => t / max 0 tiny)).map
      (fun t => t * t)) 0 = [(0 : ℝ)]
    simp [sumAlong, arrZ, List.ofFn_succ]
  have h2 := norm_ok_intro maxAll_arrZ hs
  rw [h2]
  refine congrArg Except.ok (Arr.ext_sd rfl ?_)
  show [max 0 tiny * Real.sqrt 0] = [(0 : ℝ)]
  rw [Real.sqrt_zero, mul_zero]

theorem norm_arrZ_ax_true : norm arrZ (some 0) true = .ok arrZ := by
  have hres : resolveAxis 0
      ((arrZ.map (fun t => t / max 0 tiny)).map
        (fun t => t * t)).shape.length = some 0 := resolveAxis_arrZ
  have hs : npSum ((arrZ.map (fun t => t / max 0 tiny)).map (fun t => t * t))
      (some 0) true = .ok ⟨[1], [(0 : ℝ)], by simp⟩ := by
    rw [npSum_some_eq _ _ true hres]
    refine congrArg Except.ok (Arr.ext_sd rfl ?_)
    show sumAlong [1] ((arrZ.data.map (fun t => t / max 0 tiny)).map
      (fun t => t * t)) 0 = [(0 : ℝ)]
    simp [sumAlong, arrZ, List.ofFn_succ]
  have h2 := norm_ok_intro maxAll_arrZ hs
  rw [h2]
  refine congrArg Except.ok (Arr.ext_sd rfl ?_)
  show [max 0 tiny * Real.sqrt 0] = [(0 : ℝ)]
  rw [Real.sqrt_zero, mul_zero]

theorem npSqueeze_arrZ_none : npSqueeze arrZ none = .ok arrS := by
  rw [npSqueeze_none_eq]
  exact congrArg Except.ok (Arr.ext_sd (by decide) rfl)

theorem divB_guard_arrZ : divBroadcast arrZ (whereGuard arrZ) = arrZ := by
  refine divBroadcast_guard_eq_self ?_ ?_
  · intro v hv
    have hv2 : v ∈ [(0 : ℝ)] := hv
    rw [List.mem_singleton] at hv2
    exact hv2
  · intro e he
    have he2 : e ∈ [1] := he
    rw [List.mem_singleton] at he2
    rw [he2]
    exact one_pos

theorem nrn_arrZ_true : normalize_and_return_norm arrZ none true =
    .ok (arrZ, arrZ) := by
  rw [nrn_true_eq norm_arrZ_true, divB_guard_arrZ]

theorem nrn_arrZ_false : normalize_and_return_norm arrZ none false =
    .ok (arrZ, arrS) := by
  rw [nrn_false_eq norm_arrZ_true npSqueeze_arrZ_none, divB_guard_arrZ]

theorem nrn_arrZ_ax_true : normalize_and_return_norm arrZ (some 0) true =
    .ok (arrZ, arrZ) := by
  rw [nrn_true_eq norm_arrZ_ax_true, divB_guard_arrZ]

theorem normalize_arrZ : normalize arrZ none = .ok arrZ := by
  rw [normalize_eq, nrn_arrZ_true]
  rfl

theorem normalize_arrZ_ax : normalize arrZ (some 0) = .ok arrZ := by
  rw [normalize_eq, nrn_arrZ_ax_true]
  rfl

/-- C1: for every array x, axis and keepdims setting, whenever the rescaled
computation norm(x) = a * sqrt(sum((x/a)^2, axis)) with
a = max(max(abs x), tinyEpsilon) succeeds, its result equals the naive
L2-norm sqrt(sum(x*x, axis)) exactly over real semantics. -/
theorem norm_equals_naive (x : Arr) (axis : Option Int) (kd : Bool) (r : Arr)
    (h : norm x axis kd = .ok r) :
    naive_norm x axis kd = .ok r :=
  norm_eq_naive_aux h

/-- C1 witness: the refinement instantiated at the concrete array arrZ. -/
theorem norm_equals_naive_witness : naive_norm arrZ none false = .ok arrS :=
  norm_equals_naive arrZ none false arrS norm_arrZ_false

/-- C2: with a = max(max(abs x), tinyEpsilon), every rescaled squared element
(x_i / a)^2 is bounded by 1 (so squaring cannot overflow), and the result of
norm is the correct (naive) L2-norm. -/
theorem norm_overflow_safe (x : Arr) (axis : Option Int) (kd : Bool) (m : ℝ)
    (hm : maxAll (x.map (fun t => |t|)) = .ok m) :
    (∀ i : Nat, x.data.getD i 0 / max m tiny *
      (x.data.getD i 0 / max m tiny) ≤ 1) ∧
    (∀ r, norm x axis kd = .ok r → naive_norm x axis kd = .ok r) := by
  constructor
  · intro i
    have hb := maxAll_bound hm i
    have ha0 : (0 : ℝ) < max m tiny := amax_pos m
    have h2 : x.data.getD i 0 * x.data.getD i 0 ≤
        max m tiny * max m tiny := by
      have h3 := mul_le_mul hb hb (abs_nonneg _) ha0.le
      rwa [abs_mul_abs_self] at h3
    rw [div_mul_div_comm, div_le_one (by positivity)]
    exact h2
  · intro r h
    exact norm_eq_naive_aux h

/-- C2 witness: the bound and refinement instantiated at arrZ. -/
theorem norm_overflow_safe_witness :
    (∀ i : Nat, arrZ.data.getD i 0 / max 0 tiny *
      (arrZ.data.getD i 0 / max 0 tiny) ≤ 1) ∧
    (∀ r, norm arrZ none false = .ok r →
      naive_norm arrZ none false = .ok r) :=
  norm_overflow_safe arrZ none false 0 maxAll_arrZ

/-- C3: wherever the keepdims norm n of the slice owning element p satisfies
n * n at or below tinyEpsilon, the normalized output of
normalize_and_return_norm (and of normalize) returns that element of x
exactly unchanged (division by 1 instead of by n). -/
theorem nearzero_passthrough (x : Arr) (axis : Option Int) (kd : Bool)
    (y nret n : Arr) (p : Nat)
    (hnrm : normalize_and_return_norm x axis kd = .ok (y, nret))
    (hn : norm x axis true = .ok n)
    (hp : p < x.data.length)
    (hsmall : n.data.getD (bIndex x.shape n.shape p) 0 *
      n.data.getD (bIndex x.shape n.shape p) 0 ≤ tiny) :
    y.data.getD p 0 = x.data.getD p 0 ∧
    (∀ y2, normalize x axis = .ok y2 →
      y2.data.getD p 0 = x.data.getD p 0) := by
  refine ⟨nrn_pass_aux hnrm hn hp hsmall, fun y2 hy2 => ?_⟩
  obtain ⟨n2, hnn⟩ := normalize_ok_elim hy2
  exact nrn_pass_aux hnn hn hp hsmall

/-- C3 witness: the pass-through instantiated at the all-zero array arrZ,
whose norm 0 satisfies 0 * 0 at or below tinyEpsilon. -/
theorem nearzero_passthrough_witness :
    arrZ.data.getD 0 0 = arrZ.data.getD 0 0 ∧
    (∀ y2, normalize arrZ none = .ok y2 →
      y2.data.getD 0 0 = arrZ.data.getD 0 0) :=
  nearzero_passthrough arrZ none true arrZ arrZ arrZ 0 nrn_arrZ_true
    norm_arrZ_true (by decide)
    (by
      show (0 : ℝ) * 0 ≤ tiny
      rw [zero_mul]
      exact tiny_pos.le)

/-- C4: for every nonempty all-zero input array and every axis/keepdims
configuration, every element returned by norm is exactly 0 and normalize
returns the zero array unchanged. -/
theorem zero_input_stability (x : Arr) (axis : Option Int) (kd : Bool)
    (hne : x.data ≠ []) (hz : ∀ v ∈ x.data, v = 0) :
    (∀ r, norm x axis kd = .ok r → ∀ v ∈ r.data, v = 0) ∧
    (∀ y, normalize x axis = .ok y → y = x) :=
  ⟨fun _ h => norm_zero_aux hz h, fun _ h => normalize_zero_aux hne hz h⟩

/-- C4 witness: zero-input stability instantiated at arrZ. -/
theorem zero_input_stability_witness :
    (∀ r, norm arrZ none false = .ok r → ∀ v ∈ r.data, v = 0) ∧
    (∀ y, normalize arrZ none = .ok y → y = arrZ) :=
  zero_input_stability arrZ none false (by simp [arrZ])
    (by
      intro v hv
      have hv2 : v ∈ [(0 : ℝ)] := hv
      rw [List.mem_singleton] at hv2
      exact hv2)

/-- C5: for a valid single axis k, norm with keepdims=False has rank r-1,
norm with keepdims=True has rank r with axis k of size 1, and normalize
always returns the shape of x. -/
theorem shape_contract (x : Arr) (ax : Int) (k : Nat)
    (hres : resolveAxis ax x.shape.length = some k) :
    (∀ r, norm x (some ax) false = .ok r →
      r.shape.length = x.shape.length - 1) ∧
    (∀ r, norm x (some ax) true = .ok r →
      r.shape.length = x.shape.length ∧ r.shape.getD k 0 = 1) ∧
    (∀ axis2 : Option Int, ∀ y, normalize x axis2 = .ok y →
      y.shape = x.shape) := by
  refine ⟨?_, ?_, ?_⟩
  · intro r h
    obtain ⟨k2, hres2, hsh⟩ := norm_shape_some h
    rw [hres] at hres2
    injection hres2 with he
    subst he
    rw [if_neg (by simp)] at hsh
    rw [hsh]
    exact length_eraseIdx_lt _ _ (resolveAxis_lt hres)
  · intro r h
    obtain ⟨k2, hres2, hsh⟩ := norm_shape_some h
    rw [hres] at hres2
    injection hres2 with he
    subst he
    rw [if_pos rfl] at hsh
    rw [hsh]
    constructor
    · simp
    · exact getD_set_self 0 (resolveAxis_lt hres)
  · intro axis2 y hy
    obtain ⟨n2, hnn⟩ := normalize_ok_elim hy
    obtain ⟨n0, _, hy0, _⟩ := nrn_ok_elim hnn
    rw [hy0]
    rfl

/-- C5 witness: the shape contract instantiated at arrZ with axis 0. -/
theorem shape_contract_witness :
    (∀ r, norm arrZ (some 0) false = .ok r →
      r.shape.length = arrZ.shape.length - 1) ∧
    (∀ r, norm arrZ (some 0) true = .ok r →
      r.shape.length = arrZ.shape.length ∧ r.shape.getD 0 0 = 1) ∧
    (∀ axis2 : Option Int, ∀ y, normalize arrZ axis2 = .ok y →
      y.shape = arrZ.shape) :=
  shape_contract arrZ 0 0 (by decide)

/-- C6 counterexample: the claim says the result is a rank-0 scalar for
every keepdims setting whenever axis is absent, but with axis=None and
keepdims=True on the rank-1 array arrZ, norm succeeds and returns an array
of shape [1] (rank 1), not rank 0. -/
theorem norm_scalar_cex :
    norm arrZ none true = .ok arrZ ∧ arrZ.shape.length ≠ 0 :=
  ⟨norm_arrZ_true, by decide⟩

/-- C6 amended: the result of norm is a rank-0 scalar if axis is absent and
keepdims is false, or if x itself is rank-0 (with keepdims=True and axis
absent on a higher-rank array, the reduced axes are kept as size-1
dimensions instead). -/
theorem norm_scalar_amended (x : Arr) (axis : Option Int) (kd : Bool) (r : Arr)
    (h : norm x axis kd = .ok r)
    (hcase : (axis = none ∧ kd = false) ∨ x.shape = []) :
    r.shape = [] := by
  rcases hcase with ⟨rfl, rfl⟩ | hx
  · have hsh := norm_shape_none h
    rw [if_neg (by simp)] at hsh
    exact hsh
  · cases axis with
    | none =>
      have hsh := norm_shape_none h
      rw [hx] at hsh
      cases kd
      · rw [if_neg (by simp)] at hsh
        exact hsh
      · rw [if_pos rfl] at hsh
        simpa using hsh
    | some ax =>
      obtain ⟨k, hres, _⟩ := norm_shape_some h
      have hk := resolveAxis_lt hres
      rw [hx] at hk
      simp at hk

/-- C6 amended witness: norm of arrZ with axis absent and keepdims=False is
rank 0. -/
theorem norm_scalar_amended_witness : arrS.shape = [] :=
  norm_scalar_amended arrZ none false arrS norm_arrZ_false
    (Or.inl ⟨rfl, rfl⟩)

/-- C7: normalize is a thin wrapper: it equals the first component of
normalize_and_return_norm with keepdims fixed to true, with the norm
discarded. -/
theorem normalize_thin_wrapper (x : Arr) (axis : Option Int) :
    normalize x axis = Except.map (fun yn : Arr × Arr => yn.1)
      (normalize_and_return_norm x axis true) :=
  normalize_eq x axis

/-- C8: for every nonempty x and every axis outside the valid range
[-rank, rank), norm, normalize_and_return_norm and normalize all fail with
the InvalidAxis error propagated from the array engine, returning no
result. -/
theorem invalid_axis_error (x : Arr) (ax : Int) (kd : Bool)
    (hne : x.data ≠ []) (hax : resolveAxis ax x.shape.length = none) :
    norm x (some ax) kd = .error .invalidAxis ∧
    normalize_and_return_norm x (some ax) kd = .error .invalidAxis ∧
    normalize x (some ax) = .error .invalidAxis := by
  obtain ⟨m, hm⟩ := maxAll_ok_of_ne_nil hne
  have hax2 : resolveAxis ax
      ((x.map (fun t => t / max m tiny)).map
        (fun t => t * t)).shape.length = none := hax
  have hnorm : ∀ kd2 : Bool, norm x (some ax) kd2 = .error .invalidAxis :=
    fun kd2 => norm_error_intro hm (npSum_some_invalid _ _ kd2 hax2)
  refine ⟨hnorm kd, nrn_error kd (hnorm true), ?_⟩
  rw [normalize_eq, nrn_error true (hnorm true)]
  rfl

/-- C8 witness: the out-of-range axis 5 on the rank-1 array arr2. -/
theorem invalid_axis_error_witness :
    norm arr2 (some 5) false = .error .invalidAxis ∧
    normalize_and_return_norm arr2 (some 5) false = .error .invalidAxis ∧
    normalize arr2 (some 5) = .error .invalidAxis :=
  invalid_axis_error arr2 5 false (by simp [arr2]) (by decide)

/-- C9: every element of the array returned by norm is nonnegative, and
likewise every element of the norm component returned by
normalize_and_return_norm. -/
theorem norm_results_nonneg (x : Arr) (axis : Option Int) (kd : Bool) :
    (∀ r, norm x axis kd = .ok r → ∀ i : Nat, 0 ≤ r.data.getD i 0) ∧
    (∀ y n, normalize_and_return_norm x axis kd = .ok (y, n) →
      ∀ i : Nat, 0 ≤ n.data.getD i 0) := by
  constructor
  · intro r h i
    exact getD_nonneg (norm_nonneg_aux h) i
  · intro y n h i
    obtain ⟨n0, hn0, _, hcase⟩ := nrn_ok_elim h
    have hz := norm_nonneg_aux hn0
    rcases hcase with ⟨_, rfl⟩ | ⟨_, hq⟩
    · exact getD_nonneg hz i
    · rw [npSqueeze_data hq]
      exact getD_nonneg hz i

/-- C9 witness: nonnegativity instantiated at arrZ. -/
theorem norm_results_nonneg_witness :
    0 ≤ arrS.data.getD 0 0 ∧ 0 ≤ arrZ.data.getD 0 0 :=
  ⟨(norm_results_nonneg arrZ none false).1 arrS norm_arrZ_false 0,
   (norm_results_nonneg arrZ none true).2 arrZ arrZ nrn_arrZ_true 0⟩

/-- C10: the norm component returned by normalize_and_return_norm equals
norm(x, axis, keepdims) exactly: with keepdims it is the keepdims norm
itself, and without keepdims squeezing the keepdims norm along axis yields
exactly the keepdims=False norm; the near-zero guard never affects the
returned norm. -/
theorem nrn_returns_true_norm (x : Arr) (axis : Option Int) (kd : Bool)
    (y n : Arr)
    (h : normalize_and_return_norm x axis kd = .ok (y, n)) :
    norm x axis kd = .ok n := by
  obtain ⟨n0, hn0, _, hcase⟩ := nrn_ok_elim h
  rcases hcase with ⟨rfl, rfl⟩ | ⟨rfl, hq⟩
  · exact hn0
  · obtain ⟨nf, hnf, hdata, hshape⟩ := norm_false_of_true hn0
    obtain ⟨hdata2, hsq⟩ := npSqueeze_ok_elim hq
    have hnnf : n = nf := by
      refine Arr.ext_sd ?_ ?_
      · rcases hshape with ⟨rfl, hsh0, hshf⟩ | ⟨ax, k, rfl, hres, hsh0, hshf⟩
        · rcases hsq with ⟨_, hsq2⟩ | ⟨ax, k, habs, _⟩
          · rw [hsq2, hsh0, filter_map_one, hshf]
          · exact absurd habs (by simp)
        · rcases hsq with ⟨habs, _⟩ | ⟨ax2, k2, heq, hres2, hsq2⟩
          · exact absurd habs (by simp)
          · injection heq with he
            subst he
            rw [hsh0] at hres2
            rw [show (x.shape.set k 1).length = x.shape.length by simp]
              at hres2
            rw [hres] at hres2
            injection hres2 with he2
            subst he2
            rw [hsq2, hsh0, eraseIdx_set, hshf]
      · rw [hdata2, hdata]
    rw [hnnf]
    exact hnf

/-- C10 witness: the returned norm component at arrZ equals norm itself. -/
theorem nrn_returns_true_norm_witness : norm arrZ none true = .ok arrZ :=
  nrn_returns_true_norm arrZ none true arrZ arrZ nrn_arrZ_true

end

end BasisLib
